import Mathlib

/-!
Shallow embedding of the iiif-media-parsers library (TypeScript) in Lean 4.

Text is modelled as List Char (JS strings); JS numbers are modelled as exact
rationals. Every regular-expression match in the source is translated into an
explicit scanning function with the same leftmost-match semantics as the
corresponding JS regex on the inputs the code feeds it.

Rational arithmetic is performed through mkRat-based wrappers (qAdd, qMul)
that the kernel can evaluate; they are proved equal to + and * below.
-/

/-- Conversion from a Lean string literal to the character-list model. -/
def str (s : String) : List Char := s.data

/-- Executable rational addition via mkRat; equals + (proved below). -/
def qAdd (a b : ℚ) : ℚ := mkRat (a.num * b.den + b.num * a.den) (a.den * b.den)

/-- Executable rational multiplication via mkRat; equals * (proved below). -/
def qMul (a b : ℚ) : ℚ := mkRat (a.num * b.num) (a.den * b.den)

theorem qAdd_eq (a b : ℚ) : qAdd a b = a + b := (Rat.add_def' a b).symm

theorem qMul_eq (a b : ℚ) : qMul a b = a * b := by
  rw [Rat.mul_def, Rat.normalize_eq_mkRat]; rfl

/-- The character class of the regex fragment [0-9.]. -/
def isDigitDot (c : Char) : Bool := c.isDigit || c = '.'

/-- Whitespace as used by JS trim and the regex escape for whitespace
(restricted to the ASCII whitespace that can occur in the inputs). -/
def isWsJS (c : Char) : Bool :=
  c = ' ' || c = '\t' || c = '\n' || c = '\r' || c = '\x0b' || c = '\x0c'

/-- Decimal digits to a natural number. -/
def digitsToNat (ds : List Char) : Nat := ds.foldl (fun n c => 10 * n + (c.toNat - 48)) 0

/-- The exact rational denoted by an integer digit part and a fractional
digit part. -/
def floatVal (ip fp : List Char) : ℚ :=
  mkRat ((digitsToNat ip * 10 ^ fp.length + digitsToNat fp : Nat) : Int) (10 ^ fp.length)

/-- JS parseFloat restricted to the digits-and-dots strings the code feeds it:
the longest prefix with at most one dot is parsed; NaN (no digit before a
second dot or at all) is modelled as none. -/
def parseFloatNum (s : List Char) : Option ℚ :=
  match s.dropWhile Char.isDigit with
  | '.' :: rest2 =>
    if (s.takeWhile Char.isDigit) = [] ∧ (rest2.takeWhile Char.isDigit) = [] then none
    else some (floatVal (s.takeWhile Char.isDigit) (rest2.takeWhile Char.isDigit))
  | _ =>
    if (s.takeWhile Char.isDigit) = [] then none
    else some (floatVal (s.takeWhile Char.isDigit) [])

/-- JS parseInt with radix 10 restricted to the digit strings the code feeds
it; NaN is modelled as none. -/
def parseIntDec (s : List Char) : Option ℚ :=
  match s.takeWhile Char.isDigit with
  | [] => none
  | ds => some (floatVal ds [])

/-- JS String.prototype.trim. -/
def trimJS (s : List Char) : List Char :=
  (((s.dropWhile isWsJS).reverse).dropWhile isWsJS).reverse

/-- JS String.prototype.split with a single-character separator. -/
def splitCh (sep : Char) : List Char → List (List Char)
  | [] => [[]]
  | c :: rest =>
    match splitCh sep rest with
    | [] => [[]]
    | l :: ls => if c = sep then [] :: l :: ls else (c :: l) :: ls

/-- JS String.prototype.includes for a fixed pattern. -/
def includesSub (pat : List Char) : List Char → Bool
  | [] => pat.isEmpty
  | c :: rest => pat.isPrefixOf (c :: rest) || includesSub pat rest

/-- Leftmost-match regex search: try the matcher at each start position,
left to right, including the empty suffix at the end. -/
def scanFirst {α : Type} (f : List Char → Option α) : List Char → Option α
  | [] => f []
  | c :: rest =>
    match f (c :: rest) with
    | some a => some a
    | none => scanFirst f rest

/-- JS String.prototype.indexOf for the hash character, returning the parts
before and after the first hash (none when no hash occurs). -/
def splitAtHash : List Char → Option (List Char × List Char)
  | [] => none
  | c :: rest =>
    if c = '#' then some ([], rest)
    else
      match splitAtHash rest with
      | none => none
      | some (pre, frag) => some (c :: pre, frag)

/-! ## Annotation target parser (source: parseAnnotationTarget module)

The module parses string URIs and SpecificResource objects, extracting
temporal and spatial fragments per the W3C Media Fragments syntax. -/

/-- TemporalFragment record: required start, optional end. -/
structure TemporalFragment where
  start : ℚ
  «end» : Option ℚ
deriving DecidableEq

/-- SpatialFragment record: x, y, width, height and a unit string
(pixel or percent). -/
structure SpatialFragment where
  x : ℚ
  y : ℚ
  width : ℚ
  height : ℚ
  unit : String
deriving DecidableEq

/-- ParsedAnnotationTarget record: source with the fragment stripped, plus
optional temporal and spatial results. -/
structure ParsedAnnotationTarget where
  source : List Char
  temporal : Option TemporalFragment
  spatial : Option SpatialFragment
deriving DecidableEq

/-- Source: parseNonNegativeValue. Empty or NaN input gives undefined, as
does a negative value. -/
def parseNonNegativeValue (s : List Char) : Option ℚ :=
  if s = [] then none
  else
    match parseFloatNum s with
    | none => none
    | some n => if n < 0 then none else some n

/-- Matcher for the literal t= at the current position (all the rest of the
temporal regex of parseTemporalFromFragment is optional, so the regex matches
exactly at the first occurrence of t=). -/
def matchTEq (s : List Char) : Option (List Char) :=
  match s with
  | 't' :: '=' :: rest => some rest
  | _ => none

/-- The second capture of the temporal regex: after the greedy first run, an
optional comma followed by a second greedy run (empty when no comma). -/
def temporalEndCap (afterStart : List Char) : List Char :=
  match afterStart with
  | ',' :: r => r.takeWhile isDigitDot
  | _ => []

/-- The body of parseTemporalFromFragment once the two captures are known:
both empty is invalid; an empty start means zero; an end not strictly greater
than the start invalidates the whole temporal result. -/
def temporalFromCaps (startStr endStr : List Char) : Option TemporalFragment :=
  if startStr = [] ∧ endStr = [] then none
  else
    match (if startStr = [] then some 0 else parseNonNegativeValue startStr) with
    | none => none
    | some s =>
      match parseNonNegativeValue endStr with
      | some e => if e ≤ s then none else some ⟨s, some e⟩
      | none => some ⟨s, none⟩

/-- Source: parseTemporalFromFragment. The regex captures an optional run of
digits and dots, an optional comma, and a second optional run, at the first
occurrence of the literal t=. -/
def parseTemporalFromFragment (fragment : List Char) : Option TemporalFragment :=
  match scanFirst matchTEq fragment with
  | none => none
  | some rest =>
    temporalFromCaps (rest.takeWhile isDigitDot) (temporalEndCap (rest.dropWhile isDigitDot))

/-- One comma-separated numeric run: none when the run is empty. -/
def numRun (s : List Char) : Option (List Char × List Char) :=
  match s.takeWhile isDigitDot with
  | [] => none
  | run => some (run, s.dropWhile isDigitDot)

/-- Four comma-separated numeric runs, as required by the spatial regex. -/
def parse4Runs (s : List Char) : Option (List Char × List Char × List Char × List Char) :=
  match numRun s with
  | none => none
  | some (a, r1) =>
    match r1 with
    | ',' :: r1' =>
      match numRun r1' with
      | none => none
      | some (b, r2) =>
        match r2 with
        | ',' :: r2' =>
          match numRun r2' with
          | none => none
          | some (c, r3) =>
            match r3 with
            | ',' :: r3' =>
              match numRun r3' with
              | none => none
              | some (d, _) => some (a, b, c, d)
            | _ => none
        | _ => none
    | _ => none

/-- Body of the spatial matcher once the unit has been determined: parse the
four values and apply the percent bounds checks of the source. -/
def matchXYWHCore (unit : String) (rest2 : List Char) : Option SpatialFragment :=
  match parse4Runs rest2 with
  | none => none
  | some (xs, ys, ws, hs) =>
    match parseNonNegativeValue xs, parseNonNegativeValue ys,
          parseNonNegativeValue ws, parseNonNegativeValue hs with
    | some x, some y, some w, some h =>
      if unit = "percent" then
        if 100 < x ∨ 100 < y ∨ 100 < w ∨ 100 < h then none
        else if 100 < qAdd x w ∨ 100 < qAdd y h then none
        else some ⟨x, y, w, h, unit⟩
      else some ⟨x, y, w, h, unit⟩
    | _, _, _, _ => none

/-- Matcher for the spatial regex at the current position: the literal xywh=,
an optional unit token (the alternatives pixel: and percent: are mutually
exclusive, and on their failure the empty alternative also fails because the
following character p is not numeric, so no backtracking arises), then four
comma-separated numeric runs. -/
def matchXYWH (s : List Char) : Option SpatialFragment :=
  match s with
  | c1 :: c2 :: c3 :: c4 :: c5 :: rest =>
    if c1 = 'x' ∧ c2 = 'y' ∧ c3 = 'w' ∧ c4 = 'h' ∧ c5 = '=' then
      match rest with
      | 'p' :: 'i' :: 'x' :: 'e' :: 'l' :: ':' :: r => matchXYWHCore "pixel" r
      | 'p' :: 'e' :: 'r' :: 'c' :: 'e' :: 'n' :: 't' :: ':' :: r => matchXYWHCore "percent" r
      | _ => matchXYWHCore "pixel" rest
    else none
  | _ => none

/-- Source: parseSpatialFromFragment. -/
def parseSpatialFromFragment (fragment : List Char) : Option SpatialFragment :=
  scanFirst matchXYWH fragment

/-- Source: parseMediaFragment. Splits at the first hash; with no hash the
whole input is the source and no fragment parsing happens. -/
def parseMediaFragment (uri : List Char) : ParsedAnnotationTarget :=
  match splitAtHash uri with
  | none => ⟨uri, none, none⟩
  | some (source, fragment) =>
    ⟨source, parseTemporalFromFragment fragment, parseSpatialFromFragment fragment⟩

/-- The source field of a SpecificResource: a plain string or an object
carrying an id. -/
inductive SourceField where
  | strSrc : List Char → SourceField
  | objSrc : List Char → SourceField
deriving DecidableEq

/-- A selector object: a type discriminator and an optional value string. -/
structure Selector where
  type : String
  value : Option (List Char)
deriving DecidableEq

/-- Input to parseAnnotationTarget: a plain string, or a structured object
with a type discriminator, a source and an optional selector. -/
inductive AnnotationTargetInput where
  | strT : List Char → AnnotationTargetInput
  | resT : String → SourceField → Option Selector → AnnotationTargetInput
deriving DecidableEq

/-- Source: extractSourceUri. -/
def extractSourceUri : SourceField → List Char
  | .strSrc s => s
  | .objSrc i => i

/-- Source: parseStringTarget: the empty string gives null. -/
def parseStringTarget (target : List Char) : Option ParsedAnnotationTarget :=
  if target = [] then none else some (parseMediaFragment target)

/-- The truthiness test on the selector of a SpecificResource: present, of
type FragmentSelector, and with a nonempty value string. -/
def selectorFragmentValue (sel : Option Selector) : Option (List Char) :=
  match sel with
  | some s =>
    if s.type = "FragmentSelector" then
      match s.value with
      | some v => if v = [] then none else some v
      | none => none
    else none
  | none => none

/-- Source: parseSpecificResourceTarget. A usable FragmentSelector value is
parsed by prepending a dummy base and a hash and running parseMediaFragment;
the declared source always wins as the source field of the result. -/
def parseSpecificResourceTarget (source : SourceField) (sel : Option Selector) :
    ParsedAnnotationTarget :=
  match selectorFragmentValue sel with
  | some v =>
    ⟨extractSourceUri source,
     (parseMediaFragment (['d', 'u', 'm', 'm', 'y'] ++ '#' :: v)).temporal,
     (parseMediaFragment (['d', 'u', 'm', 'm', 'y'] ++ '#' :: v)).spatial⟩
  | none => ⟨extractSourceUri source, none, none⟩

/-- Source: parseAnnotationTarget. A falsy input (empty string) or an object
whose type discriminator is not SpecificResource gives null. -/
def parseAnnotationTarget : AnnotationTargetInput → Option ParsedAnnotationTarget
  | .strT s => if s = [] then none else parseStringTarget s
  | .resT ty src sel =>
    if ty = "SpecificResource" then some (parseSpecificResourceTarget src sel) else none

example : parseMediaFragment (str "https://example.org/canvas#t=10,20") =
    ⟨str "https://example.org/canvas", some ⟨10, some 20⟩, none⟩ := by decide

example : parseMediaFragment (str "https://example.org/canvas#t=20,10") =
    ⟨str "https://example.org/canvas", none, none⟩ := by decide

example : parseMediaFragment (str "a#t=,20") =
    ⟨str "a", some ⟨0, some 20⟩, none⟩ := by decide

example : parseMediaFragment (str "a#t=-5,20") = ⟨str "a", none, none⟩ := by decide

example : parseMediaFragment (str "https://example.org/canvas#left=3") =
    ⟨str "https://example.org/canvas", some ⟨3, none⟩, none⟩ := by decide

example : parseMediaFragment (str "i#xywh=100,200,50,75") =
    ⟨str "i", none, some ⟨100, 200, 50, 75, "pixel"⟩⟩ := by decide

example : parseSpatialFromFragment (str "xywh=percent:10,20,30,40") =
    some ⟨10, 20, 30, 40, "percent"⟩ := by decide

example : parseSpatialFromFragment (str "xywh=percent:80,80,30,30") = none := by decide

example : parseMediaFragment (str "v#t=10.5,25.75") =
    ⟨str "v", some ⟨mkRat 105 10, some (mkRat 2575 100)⟩, none⟩ := by decide

/-! ## Range parser (source: parseRanges module)

Parses IIIF Range structures of a manifest into Chapter records, recursively,
resolving open-ended temporal fragments through a canvas-duration lookup. -/

/-- An IIIF language map: ordered keys to lists of strings. -/
abbrev LangMap := List (String × List (List Char))

/-- A node in the items tree of a Range: both Canvas references and nested
Ranges are objects with an id and a type discriminator; the fields beyond id
and type are only read when the code treats the node as a Range. -/
inductive RangeNode where
  | mk (id : List Char) (type : String) (label : Option LangMap)
       (items : List RangeNode) (thumbnail : List (List Char))
       (metadata : List (LangMap × LangMap))

def RangeNode.id : RangeNode → List Char
  | .mk i _ _ _ _ _ => i

def RangeNode.type : RangeNode → String
  | .mk _ t _ _ _ _ => t

def RangeNode.label : RangeNode → Option LangMap
  | .mk _ _ l _ _ _ => l

def RangeNode.items : RangeNode → List RangeNode
  | .mk _ _ _ it _ _ => it

def RangeNode.thumbnail : RangeNode → List (List Char)
  | .mk _ _ _ _ th _ => th

def RangeNode.metadata : RangeNode → List (LangMap × LangMap)
  | .mk _ _ _ _ _ md => md

/-- An IIIF Canvas as read by the duration map builder. -/
structure IIIFCanvas where
  id : List Char
  duration : Option ℚ

/-- The manifest as read by parseRanges: optional structures and items lists
are modelled as lists (absent and empty behave identically in the source). -/
structure IIIFManifest where
  id : List Char
  structures : List RangeNode
  items : List IIIFCanvas

/-- The Chapter record produced by parseRanges. -/
structure Chapter where
  id : List Char
  label : List Char
  startTime : ℚ
  endTime : ℚ
  thumbnail : Option (List Char)
  metadata : Option (List (List Char × List Char))
deriving DecidableEq

/-- Source: hasTemporalFragment: the id contains the literal hash-t-equals. -/
def hasTemporalFragment (canvasId : List Char) : Bool :=
  includesSub ['#', 't', '='] canvasId

/-- Matcher for the anchored temporal regex of the range parser at the current
position: the literal hash-t-equals, a nonempty run of digits and dots, then
either the end of the string or a comma, a second nonempty run and the end of
the string. -/
def matchHashT (s : List Char) : Option (List Char × Option (List Char)) :=
  match s with
  | c1 :: c2 :: c3 :: rest =>
    if c1 = '#' ∧ c2 = 't' ∧ c3 = '=' then
      match rest.takeWhile isDigitDot with
      | [] => none
      | a =>
        match rest.dropWhile isDigitDot with
        | [] => some (a, none)
        | ',' :: r =>
          match r.takeWhile isDigitDot with
          | [] => none
          | b =>
            match r.dropWhile isDigitDot with
            | [] => some (a, some b)
            | _ => none
        | _ => none
    else none
  | _ => none

/-- The body of extractTemporalFragment once the captures are known: NaN or a
negative start gives null; a missing end capture gives an open-ended result;
a NaN end or an end not strictly greater than the start gives null. -/
def temporalFromAnchoredCaps (aStr : List Char) (bStr : Option (List Char)) :
    Option TemporalFragment :=
  match parseFloatNum aStr with
  | none => none
  | some s =>
    if s < 0 then none
    else
      match bStr with
      | none => some ⟨s, none⟩
      | some bs =>
        match parseFloatNum bs with
        | none => none
        | some e => if e ≤ s then none else some ⟨s, some e⟩

/-- Source: extractTemporalFragment (range parser module). Its regex is
anchored at the end of the string and requires a nonempty start run. -/
def extractTemporalFragment (canvasId : List Char) : Option TemporalFragment :=
  match scanFirst matchHashT canvasId with
  | none => none
  | some (aStr, bStr) => temporalFromAnchoredCaps aStr bStr

/-- Source: extractCanvasId: everything before the first hash. -/
def extractCanvasId (canvasIdWithFragment : List Char) : List Char :=
  match splitAtHash canvasIdWithFragment with
  | none => canvasIdWithFragment
  | some (pre, _) => pre

/-- The canvas-duration lookup map, modelled as a function; later canvases
with the same id overwrite earlier ones, as JS Map.set does. -/
abbrev DurMap := List Char → Option ℚ

/-- Source: buildCanvasDurationMap: canvases with a truthy id and a declared
duration are recorded. -/
def buildCanvasDurationMap (canvases : List IIIFCanvas) : DurMap :=
  canvases.foldl
    (fun m c =>
      match c.duration with
      | some d => if c.id = [] then m else fun k => if k = c.id then some d else m k
      | none => m)
    (fun _ => none)

/-- Source: getFirstLabel: the first entry if it is present and truthy. -/
def getFirstLabel (labels : List (List Char)) : Option (List Char) :=
  match labels with
  | [] => none
  | l0 :: _ => if l0 = [] then none else some l0

/-- First-match lookup of a language key (JS object keys are unique). -/
def lookupLang (m : LangMap) (k : String) : Option (List (List Char)) :=
  match m with
  | [] => none
  | (k', v) :: rest => if k' = k then some v else lookupLang rest k

/-- The fallback scan of extractLabel over the values of the language map in
iteration order. -/
def firstLangLabel : LangMap → Option (List Char)
  | [] => none
  | (_, labels) :: rest =>
    match getFirstLabel labels with
    | some l => some l
    | none => firstLangLabel rest

/-- Source: extractLabel: prefer a truthy first entry under the en key, then
the first truthy first entry of any language, then the fixed placeholder. -/
def extractLabel (labelMap : Option LangMap) : List Char :=
  match labelMap with
  | none => str "Untitled Chapter"
  | some m =>
    match (lookupLang m "en").bind getFirstLabel with
    | some l => l
    | none =>
      match firstLangLabel m with
      | some l => l
      | none => str "Untitled Chapter"

/-- Source: extractThumbnail: the id of the first thumbnail entry, if any. -/
def extractThumbnail (thumbnails : List (List Char)) : Option (List Char) :=
  match thumbnails with
  | [] => none
  | t :: _ => some t

/-- JS object property assignment on a string-keyed record: an existing key
keeps its position and gets the new value, a new key is appended. -/
def recordSet (m : List (List Char × List Char)) (k v : List Char) :
    List (List Char × List Char) :=
  if m.any (fun p => decide (p.1 = k)) then
    m.map (fun p => if p.1 = k then (k, v) else p)
  else m ++ [(k, v)]

/-- Source: extractMetadata: resolve each label and value through
extractLabel; later duplicate keys overwrite earlier ones. -/
def extractMetadata (metadata : List (LangMap × LangMap)) :
    Option (List (List Char × List Char)) :=
  if metadata = [] then none
  else some (metadata.foldl
    (fun acc p => recordSet acc (extractLabel (some p.1)) (extractLabel (some p.2))) [])

/-- Source: createChapterFromRange. Timing comes from the first item of the
filtered list; an open-ended fragment is resolved through the duration map
keyed by the fragment-free canvas id, and an unresolvable end abandons the
chapter. -/
def createChapterFromRange (range : RangeNode) (items : List RangeNode) (durs : DurMap) :
    Option Chapter :=
  match items with
  | [] => none
  | firstItem :: _ =>
    match extractTemporalFragment firstItem.id with
    | none => none
    | some timing =>
      match (match timing.«end» with
             | some e => some e
             | none => durs (extractCanvasId firstItem.id)) with
      | none => none
      | some endTime =>
        some ⟨range.id, extractLabel range.label, timing.start, endTime,
              extractThumbnail range.thumbnail, extractMetadata range.metadata⟩

/-- The filter predicate for direct Canvas children carrying a temporal
fragment. -/
def temporalPred (it : RangeNode) : Bool :=
  decide (it.type = "Canvas") && hasTemporalFragment it.id

/-- The filter predicate for nested Range children. -/
def rangePred (it : RangeNode) : Bool :=
  decide (it.type = "Range")

mutual

/-- Source: processRange. A range with a nonempty filtered list of direct
temporal Canvas children contributes at most one chapter, then every nested
Range child is processed recursively. The source appends into a shared
accumulator in traversal order; returning and concatenating local lists
produces the identical list. -/
def processRange (range : RangeNode) (durs : DurMap) : List Chapter :=
  match range with
  | .mk _ _ _ items _ _ =>
    if items.length = 0 then []
    else
      (if 0 < (items.filter temporalPred).length then
        (createChapterFromRange range (items.filter temporalPred) durs).toList
      else []) ++ processItems items durs

/-- The loop of processRange over nested Range children, in list order. -/
def processItems (l : List RangeNode) (durs : DurMap) : List Chapter :=
  match l with
  | [] => []
  | it :: rest =>
    (if rangePred it then processRange it durs else []) ++ processItems rest durs

end

/-- The loop of parseRanges over the top-level structures. -/
def processStructures (l : List RangeNode) (durs : DurMap) : List Chapter :=
  match l with
  | [] => []
  | r :: rest => processRange r durs ++ processStructures rest durs

/-- The sort order of parseRanges: ascending startTime. -/
def chLE (a b : Chapter) : Prop := a.startTime ≤ b.startTime

instance : DecidableRel chLE := fun a b => inferInstanceAs (Decidable (a.startTime ≤ b.startTime))

instance : IsTotal Chapter chLE := ⟨fun a b => le_total a.startTime b.startTime⟩

instance : IsTrans Chapter chLE := ⟨fun _ _ _ h1 h2 => le_trans h1 h2⟩

/-- Source: parseRanges. The JS numeric-comparator sort is stable and is
modelled by insertion sort with the non-strict key order, which produces the
same list. -/
def parseRanges (manifest : IIIFManifest) : List Chapter :=
  if manifest.structures.length = 0 then []
  else
    List.insertionSort chLE
      (processStructures manifest.structures (buildCanvasDurationMap manifest.items))

example : parseRanges
    ⟨str "m",
     [.mk (str "range-1") "Range" (some [("en", [str "Introduction"])])
        [.mk (str "canvas#t=0,30") "Canvas" none [] [] []] [] []],
     []⟩ =
    [⟨str "range-1", str "Introduction", 0, 30, none, none⟩] := by decide

example : parseRanges
    ⟨str "m",
     [.mk (str "r") "Range" none [.mk (str "c#t=3971.24") "Canvas" none [] [] []] [] []],
     [⟨str "c", some (mkRat 7278422 1000)⟩]⟩ =
    [⟨str "r", str "Untitled Chapter", mkRat 397124 100, mkRat 7278422 1000, none, none⟩] := by
  decide

example : parseRanges
    ⟨str "m",
     [.mk (str "r") "Range" none [.mk (str "c#t=3971.24") "Canvas" none [] [] []] [] []],
     []⟩ = [] := by decide

/-! ## VTT speaker parser (source: parseSpeakers module)

Parses WebVTT content: timing lines, cue text, voice-tag speakers, and merges
consecutive same-speaker contiguous cues into segments. -/

/-- A parsed cue: timing, optional speaker, joined text. The speaker is
optional here because the tokenizer leaves it null when no voice tag
matches. -/
structure ParsedCue where
  startTime : ℚ
  endTime : ℚ
  speaker : Option (List Char)
  text : List Char
deriving DecidableEq

/-- A speaker segment. The speaker is carried exactly as it flows out of the
grouping loop at runtime; parseSpeakers only ever emits present speakers
because it filters its cues first. -/
structure SpeakerSegment where
  speaker : Option (List Char)
  startTime : ℚ
  endTime : ℚ
deriving DecidableEq

/-- Matcher for the long timestamp alternative (two digits, colon, two
digits, colon, two digits, dot, three digits), returning the capture and the
rest. -/
def matchTs1 (s : List Char) : Option (List Char × List Char) :=
  match s with
  | a :: b :: ':' :: c :: d :: ':' :: e :: f :: '.' :: g :: h :: i :: rest =>
    if a.isDigit && b.isDigit && c.isDigit && d.isDigit && e.isDigit && f.isDigit
        && g.isDigit && h.isDigit && i.isDigit then
      some ([a, b, ':', c, d, ':', e, f, '.', g, h, i], rest)
    else none
  | _ => none

/-- Matcher for the short timestamp alternative (two digits, colon, two
digits, dot, three digits). -/
def matchTs2 (s : List Char) : Option (List Char × List Char) :=
  match s with
  | a :: b :: ':' :: c :: d :: '.' :: e :: f :: g :: rest =>
    if a.isDigit && b.isDigit && c.isDigit && d.isDigit && e.isDigit && f.isDigit
        && g.isDigit then
      some ([a, b, ':', c, d, '.', e, f, g], rest)
    else none
  | _ => none

/-- The timestamp alternation: the long alternative is tried first; the two
alternatives can never match at the same position (one demands a colon where
the other demands a dot), so no backtracking between them can arise. -/
def matchTsEither (s : List Char) : Option (List Char × List Char) :=
  match matchTs1 s with
  | some x => some x
  | none => matchTs2 s

/-- The middle of the timing regex: one or more whitespace characters, the
arrow, one or more whitespace characters. -/
def wsArrow (s : List Char) : Option (List Char) :=
  match s.takeWhile isWsJS with
  | [] => none
  | _ :: _ =>
    match s.dropWhile isWsJS with
    | '-' :: '-' :: '>' :: r =>
      match r.takeWhile isWsJS with
      | [] => none
      | _ :: _ => some (r.dropWhile isWsJS)
    | _ => none

/-- Matcher for the whole timing regex at the current position: a timestamp,
whitespace-arrow-whitespace, a timestamp. -/
def matchTiming (s : List Char) : Option (List Char × List Char) :=
  match matchTsEither s with
  | none => none
  | some (c1, r1) =>
    match wsArrow r1 with
    | none => none
    | some r2 =>
      match matchTsEither r2 with
      | none => none
      | some (c2, _) => some (c1, c2)

/-- Source: parseVTTTimestamp: split on colons; three parts are
hours-minutes-seconds, two parts are minutes-seconds, anything else is
malformed. -/
def parseVTTTimestamp (timestamp : List Char) : Option ℚ :=
  match splitCh ':' timestamp with
  | [p0, p1, p2] =>
    match parseIntDec p0, parseIntDec p1, parseFloatNum p2 with
    | some hh, some mm, some ss => some (qAdd (qAdd (qMul hh 3600) (qMul mm 60)) ss)
    | _, _, _ => none
  | [p0, p1] =>
    match parseIntDec p0, parseFloatNum p1 with
    | some mm, some ss => some (qAdd (qAdd (qMul 0 3600) (qMul mm 60)) ss)
    | _, _ => none
  | _ => none

/-- Source: parseCueTiming: search the timing regex in the line and parse
both captured timestamps. -/
def parseCueTiming (timingLine : List Char) : Option (ℚ × ℚ) :=
  match scanFirst matchTiming timingLine with
  | none => none
  | some (c1, c2) =>
    match parseVTTTimestamp c1, parseVTTTimestamp c2 with
    | some s, some e => some (s, e)
    | _, _ => none

/-- The arrow literal used to recognize timing lines. -/
def strArrow : List Char := ['-', '-', '>']

/-- The case-insensitive NOTE-directive test: the four letters followed by a
whitespace character, at the start of the (already trimmed) line. -/
def matchNote (l : List Char) : Bool :=
  match l with
  | n :: o :: t :: e :: w :: _ =>
    (n == 'N' || n == 'n') && (o == 'O' || o == 'o') && (t == 'T' || t == 't')
      && (e == 'E' || e == 'e') && isWsJS w
  | _ => false

/-- Source: collectCueText, recast on the list of lines after the timing
line: stop at a blank or timing line, skip NOTE lines, keep trimmed lines. -/
def collectCueTextL : List (List Char) → List (List Char)
  | [] => []
  | l :: rest =>
    if trimJS l = [] ∨ includesSub strArrow (trimJS l) then []
    else if matchNote (trimJS l) then collectCueTextL rest
    else trimJS l :: collectCueTextL rest

/-- JS Array.prototype.join with a single space. -/
def joinSpace : List (List Char) → List Char
  | [] => []
  | [l] => l
  | l :: rest => l ++ ' ' :: joinSpace rest

/-- The capture of the voice-tag regex after the leading angle-v: one or more
whitespace characters, then a nonempty run without a closing angle, then the
closing angle. When the greedy whitespace leaves an empty capture the regex
backtracks one whitespace character into the capture, which demands at least
two whitespace characters. -/
def matchVoiceCapture (rest : List Char) : Option (List Char) :=
  match rest.takeWhile isWsJS with
  | [] => none
  | w =>
    match (rest.dropWhile isWsJS).dropWhile (fun c => decide (c ≠ '>')) with
    | '>' :: _ =>
      match (rest.dropWhile isWsJS).takeWhile (fun c => decide (c ≠ '>')) with
      | [] =>
        match w.reverse with
        | lastWs :: _ :: _ => some [lastWs]
        | _ => none
      | cap => some cap
    | _ => none

/-- Source: extractSpeakerFromVoiceTag: the anchored case-insensitive
voice-tag regex; a match yields the capture trimmed, otherwise null. -/
def extractSpeakerFromVoiceTag (text : List Char) : Option (List Char) :=
  match text with
  | c0 :: c1 :: rest =>
    if c0 = '<' ∧ (c1 = 'v' ∨ c1 = 'V') then
      match matchVoiceCapture rest with
      | some cap => some (trimJS cap)
      | none => none
    else none
  | _ => none

/-- Source: parseCue, recast on the timing line and the following lines:
parse the timing, join the collected text, extract the speaker. -/
def parseCueL (timingLine : List Char) (rest : List (List Char)) : Option ParsedCue :=
  match parseCueTiming timingLine with
  | none => none
  | some (s, e) =>
    some ⟨s, e, extractSpeakerFromVoiceTag (joinSpace (collectCueTextL rest)),
          joinSpace (collectCueTextL rest)⟩

/-- Source: skipCueLines, recast to return the remaining lines: skip from the
line after the timing line up to (and keeping) the next blank or timing
line. -/
def skipCueLinesL : List (List Char) → List (List Char)
  | [] => []
  | l :: rest =>
    if trimJS l = [] ∨ includesSub strArrow (trimJS l) then l :: rest
    else skipCueLinesL rest

/-- The scanning loop of parseVTTCues with explicit fuel (one unit per
consumed line, so the initial line count always suffices); fuel makes the
definition structurally recursive and hence kernel-computable. -/
def parseVTTCuesFuel : Nat → List (List Char) → List ParsedCue
  | 0, _ => []
  | _, [] => []
  | fuel + 1, l :: rest =>
    if includesSub strArrow (trimJS l) then
      (match parseCueL l rest with
       | some c => [c]
       | none => []) ++ parseVTTCuesFuel fuel (skipCueLinesL rest)
    else parseVTTCuesFuel fuel rest

/-- Source: parseVTTCues: split into lines and scan for timing lines. -/
def parseVTTCues (vttContent : List Char) : List ParsedCue :=
  parseVTTCuesFuel (splitCh '\n' vttContent).length (splitCh '\n' vttContent)

/-- The loop of groupBySpeaker: state is the open segment (speaker, start,
end) plus the accumulator of closed segments. -/
def groupAux : List ParsedCue → Option (List Char) → ℚ → ℚ → List SpeakerSegment →
    List SpeakerSegment
  | [], sp, st, en, acc => acc ++ [⟨sp, st, en⟩]
  | c :: cs, sp, st, en, acc =>
    if c.speaker = sp ∧ c.startTime = en then
      groupAux cs sp st c.endTime acc
    else
      groupAux cs c.speaker c.startTime c.endTime (acc ++ [⟨sp, st, en⟩])

/-- Source: groupBySpeaker: merge a cue into the open segment exactly when
its speaker equals the open speaker and its start equals the open end. -/
def groupBySpeaker (cues : List ParsedCue) : List SpeakerSegment :=
  match cues with
  | [] => []
  | c0 :: rest => groupAux rest c0.speaker c0.startTime c0.endTime []

/-- The sort order of parseSpeakers: ascending startTime. -/
def segLE (a b : SpeakerSegment) : Prop := a.startTime ≤ b.startTime

instance : DecidableRel segLE := fun a b => inferInstanceAs (Decidable (a.startTime ≤ b.startTime))

instance : IsTotal SpeakerSegment segLE := ⟨fun a b => le_total a.startTime b.startTime⟩

instance : IsTrans SpeakerSegment segLE := ⟨fun _ _ _ h1 h2 => le_trans h1 h2⟩

/-- Source: parseSpeakers: blank input gives the empty list; otherwise parse
the cues, keep those with a speaker, group, and stable-sort by start time. -/
def parseSpeakers (vttContent : List Char) : List SpeakerSegment :=
  if trimJS vttContent = [] then []
  else
    List.insertionSort segLE
      (groupBySpeaker ((parseVTTCues vttContent).filter (fun c => c.speaker.isSome)))

example : parseSpeakers (str "00:00.000 --> 00:05.000\n<v A>x\n\n00:10.000 --> 00:15.000\n<v A>y") =
    [⟨some (str "A"), 0, 5⟩, ⟨some (str "A"), 10, 15⟩] := by decide

example : parseSpeakers (str "00:00.000 --> 00:05.000\n<v A>x\n\n00:05.000 --> 00:10.000\n<v A>y") =
    [⟨some (str "A"), 0, 10⟩] := by decide

example : parseSpeakers (str "00:10.000 --> 00:05.000\n<v A>x") =
    [⟨some (str "A"), 10, 5⟩] := by decide

example : parseSpeakers (str "WEBVTT\n\n00:00:00.000 --> 00:00:10.000\n<v Mary Johnson>I remember.") =
    [⟨some (str "Mary Johnson"), 0, 10⟩] := by decide

/-! ## Helper lemmas -/

theorem scanFirst_pos {α : Type} (f : List Char → Option α) (s : List Char) (a : α)
    (h : f s = some a) : scanFirst f s = some a := by
  cases s with
  | nil => simpa [scanFirst] using h
  | cons c rest => simp [scanFirst, h]

theorem scanFirst_skip {α : Type} (f : List Char → Option α) (p : Char → Bool)
    (hf : ∀ c s, p c = false → f (c :: s) = none) :
    ∀ pre s, (∀ c ∈ pre, p c = false) → scanFirst f (pre ++ s) = scanFirst f s := by
  intro pre
  induction pre with
  | nil => intro s _; rfl
  | cons c rest ih =>
    intro s hpre
    have hc : p c = false := hpre c (List.mem_cons_self c rest)
    have hnone : f (c :: (rest ++ s)) = none := hf c (rest ++ s) hc
    rw [List.cons_append, scanFirst, hnone]
    exact ih s (fun d hd => hpre d (List.mem_cons_of_mem c hd))

theorem scanFirst_none {α : Type} (f : List Char → Option α) (p : Char → Bool)
    (hf : ∀ c s, p c = false → f (c :: s) = none) (hnil : f [] = none) :
    ∀ l, (∀ c ∈ l, p c = false) → scanFirst f l = none := by
  intro l
  induction l with
  | nil => intro _; simpa [scanFirst] using hnil
  | cons c rest ih =>
    intro hl
    have hc : p c = false := hl c (List.mem_cons_self c rest)
    rw [scanFirst, hf c rest hc]
    exact ih (fun d hd => hl d (List.mem_cons_of_mem c hd))

theorem takeWhile_all (p : Char → Bool) :
    ∀ a : List Char, (∀ c ∈ a, p c = true) → a.takeWhile p = a := by
  intro a
  induction a with
  | nil => intro _; rfl
  | cons c rest ih =>
    intro ha
    have hc : p c = true := ha c (List.mem_cons_self c rest)
    simp only [List.takeWhile_cons, hc, if_true]
    rw [ih (fun d hd => ha d (List.mem_cons_of_mem c hd))]

theorem dropWhile_all (p : Char → Bool) :
    ∀ a : List Char, (∀ c ∈ a, p c = true) → a.dropWhile p = [] := by
  intro a
  induction a with
  | nil => intro _; rfl
  | cons c rest ih =>
    intro ha
    have hc : p c = true := ha c (List.mem_cons_self c rest)
    simp only [List.dropWhile_cons, hc, if_true]
    exact ih (fun d hd => ha d (List.mem_cons_of_mem c hd))

theorem takeWhile_all_append (p : Char → Bool) :
    ∀ a b : List Char, (∀ c ∈ a, p c = true) →
      (a ++ b).takeWhile p = a ++ b.takeWhile p := by
  intro a b
  induction a with
  | nil => intro _; rfl
  | cons c rest ih =>
    intro ha
    have hc : p c = true := ha c (List.mem_cons_self c rest)
    simp only [List.cons_append, List.takeWhile_cons, hc, if_true]
    rw [ih (fun d hd => ha d (List.mem_cons_of_mem c hd))]

theorem dropWhile_all_append (p : Char → Bool) :
    ∀ a b : List Char, (∀ c ∈ a, p c = true) →
      (a ++ b).dropWhile p = b.dropWhile p := by
  intro a b
  induction a with
  | nil => intro _; rfl
  | cons c rest ih =>
    intro ha
    have hc : p c = true := ha c (List.mem_cons_self c rest)
    simp only [List.cons_append, List.dropWhile_cons, hc, if_true]
    exact ih (fun d hd => ha d (List.mem_cons_of_mem c hd))

theorem splitAtHash_append (frag : List Char) :
    ∀ pre : List Char, '#' ∉ pre → splitAtHash (pre ++ '#' :: frag) = some (pre, frag) := by
  intro pre
  induction pre with
  | nil => intro _; simp [splitAtHash]
  | cons c rest ih =>
    intro h
    have hc : ¬ (c = '#') := fun e => h (List.mem_cons.mpr (Or.inl e.symm))
    rw [List.cons_append, splitAtHash, if_neg hc, ih (fun m => h (List.mem_cons_of_mem c m))]

theorem parseMediaFragment_split (src frag : List Char) (h : '#' ∉ src) :
    parseMediaFragment (src ++ '#' :: frag) =
      ⟨src, parseTemporalFromFragment frag, parseSpatialFromFragment frag⟩ := by
  rw [parseMediaFragment, splitAtHash_append frag src h]

theorem parseFloatNum_nil : parseFloatNum [] = none := rfl

theorem mkRat_nat_nonneg (n d : Nat) : 0 ≤ mkRat (n : Int) d := by
  rw [Rat.mkRat_eq_div]
  have h1 : (0:ℚ) ≤ ((n : Int) : ℚ) := by exact_mod_cast Int.ofNat_nonneg n
  have h2 : (0:ℚ) ≤ ((d : Nat) : ℚ) := by positivity
  exact div_nonneg h1 h2

theorem floatVal_nonneg (ip fp : List Char) : 0 ≤ floatVal ip fp := mkRat_nat_nonneg _ _

theorem parseFloatNum_nonneg (s : List Char) (v : ℚ) (h : parseFloatNum s = some v) :
    0 ≤ v := by
  unfold parseFloatNum at h
  split at h
  · split at h
    · cases h
    · cases h
      exact floatVal_nonneg _ _
  · split at h
    · cases h
    · cases h
      exact floatVal_nonneg _ _

theorem parseFloatNum_ne_nil (s : List Char) (v : ℚ) (h : parseFloatNum s = some v) :
    s ≠ [] := by
  intro e
  rw [e, parseFloatNum_nil] at h
  exact Option.noConfusion h

theorem parseNonNegativeValue_some (s : List Char) (v : ℚ)
    (h : parseFloatNum s = some v) : parseNonNegativeValue s = some v := by
  rw [parseNonNegativeValue, if_neg (parseFloatNum_ne_nil s v h), h]
  show (if v < 0 then none else some v) = some v
  rw [if_neg (not_lt.mpr (parseFloatNum_nonneg s v h))]

theorem parseNonNegativeValue_none_of (s : List Char)
    (h : parseFloatNum s = none) : parseNonNegativeValue s = none := by
  rw [parseNonNegativeValue]
  split
  · rfl
  · rw [h]

theorem filter_orderedInsert {α : Type} (r : α → α → Prop) [DecidableRel r] (p : α → Bool)
    (hp : ∀ a b, p a = true → p b = true → r a b) (x : α) :
    ∀ l : List α, (List.orderedInsert r x l).filter p =
      if p x then x :: l.filter p else l.filter p := by
  intro l
  induction l with
  | nil => simp [List.orderedInsert, List.filter_cons]
  | cons b t ih =>
    by_cases hrxb : r x b
    · simp [List.orderedInsert, hrxb, List.filter_cons]
    · rw [List.orderedInsert, if_neg hrxb, List.filter_cons]
      by_cases hpb : p b = true
      · have hpx : p x = false := by
          cases hx : p x with
          | false => rfl
          | true => exact absurd (hp x b hx hpb) hrxb
        simp [hpb, hpx, ih, List.filter_cons]
      · have hpb' : p b = false := by simpa using hpb
        simp [hpb', ih, List.filter_cons]

theorem filter_insertionSort {α : Type} (r : α → α → Prop) [DecidableRel r] (p : α → Bool)
    (hp : ∀ a b, p a = true → p b = true → r a b) :
    ∀ l : List α, (List.insertionSort r l).filter p = l.filter p := by
  intro l
  induction l with
  | nil => rfl
  | cons x t ih =>
    rw [List.insertionSort, filter_orderedInsert r p hp x _, ih, List.filter_cons]

/-! ## Claim theorems -/

/-- C10: the temporal pattern match in parseMediaFragment is an unanchored
substring search for the two characters t-equals: a URI whose fragment
contains them only as the tail of the parameter name left yields the temporal
record with start 3, although the fragment has no standalone temporal
locator. -/
theorem parseMediaFragment_unanchored_t :
    parseMediaFragment (str "https://example.org/canvas#left=3") =
      ⟨str "https://example.org/canvas", some ⟨3, none⟩, none⟩ := by decide

/-- C9: the list returned by parseRanges is pairwise sorted by startTime
ascending, and for every key the chapters with that startTime appear exactly
as in the depth-first traversal list (stability: ties keep discovery
order). -/
theorem parseRanges_sorted_stable (manifest : IIIFManifest) :
    (parseRanges manifest).Pairwise chLE ∧
    ∀ t : ℚ,
      (parseRanges manifest).filter (fun c => decide (c.startTime = t)) =
        (processStructures manifest.structures (buildCanvasDurationMap manifest.items)).filter
          (fun c => decide (c.startTime = t)) := by
  unfold parseRanges
  split
  · next hlen =>
    refine ⟨List.Pairwise.nil, fun t => ?_⟩
    rw [List.length_eq_zero.mp hlen]
    rfl
  · refine ⟨List.sorted_insertionSort chLE _, fun t => ?_⟩
    refine filter_insertionSort chLE _ (fun a b ha hb => ?_) _
    have ha' : a.startTime = t := of_decide_eq_true ha
    have hb' : b.startTime = t := of_decide_eq_true hb
    show a.startTime ≤ b.startTime
    rw [ha', hb']

/-- The per-adjacent-pair break count of the grouping loop: the state pair
(speaker, end) of the open segment always equals the previous cue's speaker
and end, so the merge decision for each cue is determined by the cue and its
predecessor. -/
def countBreaks (sp : Option (List Char)) (en : ℚ) : List ParsedCue → Nat
  | [] => 0
  | c :: rest =>
    (if c.speaker = sp ∧ c.startTime = en then 0 else 1) + countBreaks c.speaker c.endTime rest

theorem groupAux_length :
    ∀ (cs : List ParsedCue) (sp : Option (List Char)) (st en : ℚ) (acc : List SpeakerSegment),
      (groupAux cs sp st en acc).length = acc.length + 1 + countBreaks sp en cs := by
  intro cs
  induction cs with
  | nil =>
    intro sp st en acc
    simp [groupAux, countBreaks]
  | cons c rest ih =>
    intro sp st en acc
    rw [groupAux, countBreaks]
    by_cases hc : c.speaker = sp ∧ c.startTime = en
    · rw [if_pos hc, if_pos hc, ih, ← hc.1]
      omega
    · rw [if_neg hc, if_neg hc, ih]
      simp only [List.length_append, List.length_cons, List.length_nil]
      omega

/-- C6: two consecutive speaker-bearing cues merge into one segment exactly
when the speaker strings are identical and the later start equals the running
end: stated as the exact two-cue result, the segment count as one plus the
number of adjacent pairs violating the condition, and the concrete gap
example (same speaker, 0 to 5 then 10 to 15 seconds) producing two
segments. -/
theorem groupBySpeaker_merge_iff :
    (∀ c1 c2 : ParsedCue,
      groupBySpeaker [c1, c2] =
        if c2.speaker = c1.speaker ∧ c2.startTime = c1.endTime
        then [⟨c1.speaker, c1.startTime, c2.endTime⟩]
        else [⟨c1.speaker, c1.startTime, c1.endTime⟩,
              ⟨c2.speaker, c2.startTime, c2.endTime⟩]) ∧
    (∀ (c0 : ParsedCue) (cs : List ParsedCue),
      (groupBySpeaker (c0 :: cs)).length = 1 + countBreaks c0.speaker c0.endTime cs) ∧
    parseSpeakers (str "00:00.000 --> 00:05.000\n<v A>x\n\n00:10.000 --> 00:15.000\n<v A>y") =
      [⟨some (str "A"), 0, 5⟩, ⟨some (str "A"), 10, 15⟩] := by
  refine ⟨fun c1 c2 => ?_, fun c0 cs => ?_, by decide⟩
  · rw [groupBySpeaker, groupAux]
    by_cases hc : c2.speaker = c1.speaker ∧ c2.startTime = c1.endTime
    · rw [if_pos hc, if_pos hc, groupAux]
      rfl
    · rw [if_neg hc, if_neg hc, groupAux]
      rfl
  · rw [groupBySpeaker, groupAux_length]
    simp

/-! ## Evaluation lemmas for the temporal grammars -/

theorem parseTemporalFromFragment_at0 (rest : List Char) :
    parseTemporalFromFragment ('t' :: '=' :: rest) =
      temporalFromCaps (rest.takeWhile isDigitDot)
        (temporalEndCap (rest.dropWhile isDigitDot)) := by
  rw [parseTemporalFromFragment, scanFirst_pos matchTEq ('t' :: '=' :: rest) rest rfl]

theorem parseTemporalFromFragment_pair (a b : List Char)
    (ha : ∀ c ∈ a, isDigitDot c = true) (hb : ∀ c ∈ b, isDigitDot c = true) :
    parseTemporalFromFragment ('t' :: '=' :: (a ++ ',' :: b)) = temporalFromCaps a b := by
  rw [parseTemporalFromFragment_at0, takeWhile_all_append isDigitDot a (',' :: b) ha,
    dropWhile_all_append isDigitDot a (',' :: b) ha]
  show temporalFromCaps (a ++ []) (List.takeWhile isDigitDot b) = temporalFromCaps a b
  rw [List.append_nil, takeWhile_all isDigitDot b hb]

theorem parseTemporalFromFragment_open (a : List Char)
    (ha : ∀ c ∈ a, isDigitDot c = true) :
    parseTemporalFromFragment ('t' :: '=' :: a) = temporalFromCaps a [] := by
  rw [parseTemporalFromFragment_at0, takeWhile_all isDigitDot a ha,
    dropWhile_all isDigitDot a ha]
  rfl

theorem parseNonNegativeValue_nil : parseNonNegativeValue [] = none := rfl

theorem temporalFromCaps_both (a b : List Char) (va vb : ℚ)
    (hva : parseFloatNum a = some va) (hvb : parseFloatNum b = some vb) :
    temporalFromCaps a b = if vb ≤ va then none else some ⟨va, some vb⟩ := by
  have hane := parseFloatNum_ne_nil a va hva
  rw [temporalFromCaps, if_neg (fun h => hane h.1), if_neg hane,
    parseNonNegativeValue_some a va hva, parseNonNegativeValue_some b vb hvb]

theorem temporalFromCaps_open (a : List Char) (va : ℚ)
    (hva : parseFloatNum a = some va) :
    temporalFromCaps a [] = some ⟨va, none⟩ := by
  have hane := parseFloatNum_ne_nil a va hva
  rw [temporalFromCaps, if_neg (fun h => hane h.1), if_neg hane,
    parseNonNegativeValue_some a va hva, parseNonNegativeValue_nil]

theorem temporalFromCaps_nan (a b : List Char) (hane : a ≠ [])
    (hnan : parseFloatNum a = none) : temporalFromCaps a b = none := by
  rw [temporalFromCaps, if_neg (fun h => hane h.1), if_neg hane,
    parseNonNegativeValue_none_of a hnan]

theorem matchHashT_ne (c : Char) (s : List Char) (hc : ¬ c = '#') :
    matchHashT (c :: s) = none := by
  match s with
  | [] => rfl
  | [_] => rfl
  | _ :: _ :: _ => simp [matchHashT, hc]

theorem matchHashT_open (A : List Char) (hA : ∀ c ∈ A, isDigitDot c = true)
    (hAne : A ≠ []) : matchHashT ('#' :: 't' :: '=' :: A) = some (A, none) := by
  cases A with
  | nil => exact absurd rfl hAne
  | cons a0 A' =>
    have ht : (a0 :: A').takeWhile isDigitDot = a0 :: A' := takeWhile_all isDigitDot _ hA
    have hd : (a0 :: A').dropWhile isDigitDot = [] := dropWhile_all isDigitDot _ hA
    simp [matchHashT, ht, hd]

theorem matchHashT_pair (A B : List Char)
    (hA : ∀ c ∈ A, isDigitDot c = true) (hAne : A ≠ [])
    (hB : ∀ c ∈ B, isDigitDot c = true) (hBne : B ≠ []) :
    matchHashT ('#' :: 't' :: '=' :: (A ++ ',' :: B)) = some (A, some B) := by
  cases A with
  | nil => exact absurd rfl hAne
  | cons a0 A' =>
    cases B with
    | nil => exact absurd rfl hBne
    | cons b0 B' =>
      have ht : ((a0 :: A') ++ ',' :: b0 :: B').takeWhile isDigitDot = a0 :: A' := by
        rw [takeWhile_all_append isDigitDot _ _ hA]
        show (a0 :: A') ++ [] = a0 :: A'
        exact List.append_nil _
      have hd : ((a0 :: A') ++ ',' :: b0 :: B').dropWhile isDigitDot = ',' :: b0 :: B' :=
        dropWhile_all_append isDigitDot _ _ hA
      have htB : (b0 :: B').takeWhile isDigitDot = b0 :: B' := takeWhile_all isDigitDot _ hB
      have hdB : (b0 :: B').dropWhile isDigitDot = [] := dropWhile_all isDigitDot _ hB
      simp only [List.cons_append] at ht hd
      simp [matchHashT, ht, hd, htB, hdB]

theorem anchored_open_agree (A : List Char) (hAne : A ≠ []) :
    temporalFromAnchoredCaps A none = temporalFromCaps A [] := by
  cases hfa : parseFloatNum A with
  | none =>
    rw [temporalFromAnchoredCaps, hfa, temporalFromCaps_nan A [] hAne hfa]
  | some va =>
    have hnn := not_lt.mpr (parseFloatNum_nonneg A va hfa)
    rw [temporalFromCaps_open A va hfa]
    simp [temporalFromAnchoredCaps, hfa, hnn]

theorem anchored_pair_agree (A B : List Char) (vb : ℚ) (hAne : A ≠ [])
    (hvb : parseFloatNum B = some vb) :
    temporalFromAnchoredCaps A (some B) = temporalFromCaps A B := by
  cases hfa : parseFloatNum A with
  | none =>
    rw [temporalFromAnchoredCaps, hfa, temporalFromCaps_nan A B hAne hfa]
  | some va =>
    have hnn := not_lt.mpr (parseFloatNum_nonneg A va hfa)
    rw [temporalFromCaps_both A B va vb hfa hvb]
    simp [temporalFromAnchoredCaps, hfa, hnn, hvb]

theorem extractTemporalFragment_skip (src X : List Char) (hsrc : '#' ∉ src) :
    extractTemporalFragment (src ++ '#' :: X) = extractTemporalFragment ('#' :: X) := by
  rw [extractTemporalFragment, extractTemporalFragment,
    scanFirst_skip matchHashT (fun c => decide (c = '#'))
      (fun c s hcs => matchHashT_ne c s (of_decide_eq_false hcs)) src ('#' :: X)
      (fun c hc => decide_eq_false (fun e => hsrc (e ▸ hc)))]

/-- C4: for every URI whose fragment is a two-valued temporal locator with
numeric start and end, an end not strictly greater than the start yields no
temporal result; a negative start (t=-5,20) yields no temporal result; an
empty start with end 20 (t=,20) yields start 0 and end 20. -/
theorem parseMediaFragment_temporal_validation
    (src a b : List Char) (va vb : ℚ)
    (hsrc : '#' ∉ src)
    (ha : ∀ c ∈ a, isDigitDot c = true) (hb : ∀ c ∈ b, isDigitDot c = true)
    (hva : parseFloatNum a = some va) (hvb : parseFloatNum b = some vb)
    (hle : vb ≤ va) :
    (parseMediaFragment (src ++ '#' :: ('t' :: '=' :: (a ++ ',' :: b)))).temporal = none ∧
    (parseMediaFragment (src ++ '#' :: str "t=-5,20")).temporal = none ∧
    (parseMediaFragment (src ++ '#' :: str "t=,20")).temporal = some ⟨0, some 20⟩ := by
  refine ⟨?_, ?_, ?_⟩
  · rw [parseMediaFragment_split src _ hsrc]
    show parseTemporalFromFragment ('t' :: '=' :: (a ++ ',' :: b)) = none
    rw [parseTemporalFromFragment_pair a b ha hb, temporalFromCaps_both a b va vb hva hvb,
      if_pos hle]
  · rw [parseMediaFragment_split src _ hsrc]
    show parseTemporalFromFragment (str "t=-5,20") = none
    decide
  · rw [parseMediaFragment_split src _ hsrc]
    show parseTemporalFromFragment (str "t=,20") = some ⟨0, some 20⟩
    decide

/-- C4 witness at src u, start 20, end 10. -/
theorem parseMediaFragment_temporal_validation_wit :
    ('#' ∉ str "u") ∧ (∀ c ∈ str "20", isDigitDot c = true) ∧
    (∀ c ∈ str "10", isDigitDot c = true) ∧
    parseFloatNum (str "20") = some 20 ∧ parseFloatNum (str "10") = some 10 ∧
    (10 : ℚ) ≤ 20 ∧
    ((parseMediaFragment (str "u" ++ '#' :: ('t' :: '=' :: (str "20" ++ ',' :: str "10")))).temporal = none ∧
     (parseMediaFragment (str "u" ++ '#' :: str "t=-5,20")).temporal = none ∧
     (parseMediaFragment (str "u" ++ '#' :: str "t=,20")).temporal = some ⟨0, some 20⟩) :=
  ⟨by decide, by decide, by decide, by decide, by decide, by decide,
   parseMediaFragment_temporal_validation (str "u") (str "20") (str "10") 20 10
     (by decide) (by decide) (by decide) (by decide) (by decide) (by decide)⟩

/-- C2 amended: the two temporal parsing primitives agree on every identifier
whose fragment lies in the anchored grammar both accept: a hash-free base, a
fragment that is exactly t= followed by one nonempty digits-and-dots run, or
by two such runs separated by one comma with the second run numeric.
Outside that common grammar they diverge (see the counterexample). -/
theorem temporal_parsers_agree
    (src A B : List Char) (hsrc : '#' ∉ src)
    (hA : ∀ c ∈ A, isDigitDot c = true) (hAne : A ≠ [])
    (hB : ∀ c ∈ B, isDigitDot c = true) (hBne : B ≠ [])
    (vb : ℚ) (hvb : parseFloatNum B = some vb) :
    extractTemporalFragment (src ++ '#' :: 't' :: '=' :: A) =
      parseTemporalFromFragment ('t' :: '=' :: A) ∧
    extractTemporalFragment (src ++ '#' :: 't' :: '=' :: (A ++ ',' :: B)) =
      parseTemporalFromFragment ('t' :: '=' :: (A ++ ',' :: B)) := by
  constructor
  · rw [extractTemporalFragment_skip src _ hsrc, extractTemporalFragment,
      scanFirst_pos matchHashT _ _ (matchHashT_open A hA hAne),
      parseTemporalFromFragment_open A hA]
    exact anchored_open_agree A hAne
  · rw [extractTemporalFragment_skip src _ hsrc, extractTemporalFragment,
      scanFirst_pos matchHashT _ _ (matchHashT_pair A B hA hAne hB hBne),
      parseTemporalFromFragment_pair A B hA hB]
    exact anchored_pair_agree A B vb hAne hvb

/-- C2 witness at base canvas, fragment t=10 and t=10,20. -/
theorem temporal_parsers_agree_wit :
    ('#' ∉ str "canvas") ∧ (∀ c ∈ str "10", isDigitDot c = true) ∧ str "10" ≠ [] ∧
    (∀ c ∈ str "20", isDigitDot c = true) ∧ str "20" ≠ [] ∧
    parseFloatNum (str "20") = some 20 ∧
    (extractTemporalFragment (str "canvas" ++ '#' :: 't' :: '=' :: str "10") =
       parseTemporalFromFragment ('t' :: '=' :: str "10") ∧
     extractTemporalFragment (str "canvas" ++ '#' :: 't' :: '=' :: (str "10" ++ ',' :: str "20")) =
       parseTemporalFromFragment ('t' :: '=' :: (str "10" ++ ',' :: str "20"))) :=
  ⟨by decide, by decide, by decide, by decide, by decide, by decide,
   temporal_parsers_agree (str "canvas") (str "10") (str "20")
     (by decide) (by decide) (by decide) (by decide) (by decide) 20 (by decide)⟩

/-- C2 counterexample: on the fragment body t=,20 the micro-parser produces
start 0 end 20 while the range-resolver primitive rejects, so the two
implementations are not one and the same parsing rule. -/
theorem temporal_parsers_cex :
    parseTemporalFromFragment (str "t=,20") = some ⟨0, some 20⟩ ∧
    extractTemporalFragment (str "x#t=,20") = none ∧
    parseTemporalFromFragment (str "t=,20") ≠ extractTemporalFragment (str "x#t=,20") := by
  decide

/-- C5 amended: for every hash-free source string and every selector value,
the SpecificResource path and the plain-string path produce the identical
parsed record; when the source itself contains a hash the two paths split the
string differently and diverge (see the counterexample). -/
theorem parseAnnotationTarget_roundtrip (S V : List Char) (hS : '#' ∉ S) :
    parseAnnotationTarget
        (.resT "SpecificResource" (.strSrc S) (some ⟨"FragmentSelector", some V⟩)) =
      parseAnnotationTarget (.strT (S ++ '#' :: V)) := by
  have hne : S ++ '#' :: V ≠ [] := by simp
  rw [parseAnnotationTarget, parseAnnotationTarget, if_pos rfl, if_neg hne,
    parseStringTarget, if_neg hne, parseMediaFragment_split S V hS,
    parseSpecificResourceTarget]
  by_cases hV : V = []
  · subst hV
    rfl
  · have hsel : selectorFragmentValue (some ⟨"FragmentSelector", some V⟩) = some V := by
      rw [selectorFragmentValue, if_pos rfl]
      show (if V = [] then none else some V) = some V
      rw [if_neg hV]
    simp only [hsel, parseMediaFragment_split (['d', 'u', 'm', 'm', 'y']) V (by decide),
      extractSourceUri]

/-- C5 witness at source canvas and selector value t=10,20. -/
theorem parseAnnotationTarget_roundtrip_wit :
    ('#' ∉ str "canvas") ∧
    parseAnnotationTarget
        (.resT "SpecificResource" (.strSrc (str "canvas"))
          (some ⟨"FragmentSelector", some (str "t=10,20")⟩)) =
      parseAnnotationTarget (.strT (str "canvas" ++ '#' :: str "t=10,20")) :=
  ⟨by decide, parseAnnotationTarget_roundtrip (str "canvas") (str "t=10,20") (by decide)⟩

/-- C5 counterexample: with a source that already carries a hash and fragment
the two input shapes disagree; the SpecificResource path sees no temporal
fragment while the plain-string path parses start 5 from the source part. -/
theorem parseAnnotationTarget_roundtrip_cex :
    Option.map ParsedAnnotationTarget.temporal
        (parseAnnotationTarget (.resT "SpecificResource" (.strSrc (str "a#t=5"))
          (some ⟨"FragmentSelector", some (str "xywh=1,2,3,4")⟩))) = some none ∧
    Option.map ParsedAnnotationTarget.temporal
        (parseAnnotationTarget (.strT (str "a#t=5" ++ '#' :: str "xywh=1,2,3,4"))) =
      some (some ⟨5, none⟩) := by
  decide

theorem numRun_mid (xs rest : List Char) (hxs : ∀ c ∈ xs, isDigitDot c = true)
    (hne : xs ≠ []) : numRun (xs ++ ',' :: rest) = some (xs, ',' :: rest) := by
  cases xs with
  | nil => exact absurd rfl hne
  | cons x0 xs' =>
    have ht : ((x0 :: xs') ++ ',' :: rest).takeWhile isDigitDot = x0 :: xs' := by
      rw [takeWhile_all_append isDigitDot _ _ hxs]
      show (x0 :: xs') ++ [] = x0 :: xs'
      exact List.append_nil _
    have hd : ((x0 :: xs') ++ ',' :: rest).dropWhile isDigitDot = ',' :: rest :=
      dropWhile_all_append isDigitDot _ _ hxs
    simp only [List.cons_append] at ht hd
    simp [numRun, ht, hd]

theorem numRun_last (xs : List Char) (hxs : ∀ c ∈ xs, isDigitDot c = true)
    (hne : xs ≠ []) : numRun xs = some (xs, []) := by
  cases xs with
  | nil => exact absurd rfl hne
  | cons x0 xs' =>
    have ht := takeWhile_all isDigitDot (x0 :: xs') hxs
    have hd := dropWhile_all isDigitDot (x0 :: xs') hxs
    simp [numRun, ht, hd]

theorem parse4Runs_eval (xs ys ws hs : List Char)
    (hxs : ∀ c ∈ xs, isDigitDot c = true) (hys : ∀ c ∈ ys, isDigitDot c = true)
    (hws : ∀ c ∈ ws, isDigitDot c = true) (hhs : ∀ c ∈ hs, isDigitDot c = true)
    (hnex : xs ≠ []) (hney : ys ≠ []) (hnew : ws ≠ []) (hneh : hs ≠ []) :
    parse4Runs (xs ++ ',' :: (ys ++ ',' :: (ws ++ ',' :: hs))) = some (xs, ys, ws, hs) := by
  simp only [parse4Runs,
    numRun_mid xs (ys ++ ',' :: (ws ++ ',' :: hs)) hxs hnex,
    numRun_mid ys (ws ++ ',' :: hs) hys hney,
    numRun_mid ws hs hws hnew,
    numRun_last hs hhs hneh]

theorem matchXYWHCore_percent (rest2 xs ys ws hs : List Char) (vx vy vw vh : ℚ)
    (h4 : parse4Runs rest2 = some (xs, ys, ws, hs))
    (hvx : parseFloatNum xs = some vx) (hvy : parseFloatNum ys = some vy)
    (hvw : parseFloatNum ws = some vw) (hvh : parseFloatNum hs = some vh) :
    matchXYWHCore "percent" rest2 =
      if vx ≤ 100 ∧ vy ≤ 100 ∧ vw ≤ 100 ∧ vh ≤ 100 ∧ vx + vw ≤ 100 ∧ vy + vh ≤ 100
      then some ⟨vx, vy, vw, vh, "percent"⟩ else none := by
  simp only [matchXYWHCore, h4,
    parseNonNegativeValue_some xs vx hvx, parseNonNegativeValue_some ys vy hvy,
    parseNonNegativeValue_some ws vw hvw, parseNonNegativeValue_some hs vh hvh,
    qAdd_eq, eq_self_iff_true, if_true]
  by_cases hcond : vx ≤ 100 ∧ vy ≤ 100 ∧ vw ≤ 100 ∧ vh ≤ 100 ∧ vx + vw ≤ 100 ∧ vy + vh ≤ 100
  · obtain ⟨h1, h2, h3, h4c, h5, h6⟩ := hcond
    rw [if_neg (show ¬ (100 < vx ∨ 100 < vy ∨ 100 < vw ∨ 100 < vh) by
        push_neg
        exact ⟨h1, h2, h3, h4c⟩),
      if_neg (show ¬ (100 < vx + vw ∨ 100 < vy + vh) by
        push_neg
        exact ⟨h5, h6⟩),
      if_pos ⟨h1, h2, h3, h4c, h5, h6⟩]
  · rw [if_neg hcond]
    by_cases ha : 100 < vx ∨ 100 < vy ∨ 100 < vw ∨ 100 < vh
    · rw [if_pos ha]
    · rw [if_neg ha]
      have hb : 100 < vx + vw ∨ 100 < vy + vh := by
        by_contra hb
        push_neg at ha hb
        exact hcond ⟨ha.1, ha.2.1, ha.2.2.1, ha.2.2.2, hb.1, hb.2⟩
      rw [if_pos hb]

theorem matchXYWH_percent (nums : List Char) :
    matchXYWH ('x' :: 'y' :: 'w' :: 'h' :: '=' :: 'p' :: 'e' :: 'r' :: 'c' :: 'e' :: 'n' ::
        't' :: ':' :: nums) = matchXYWHCore "percent" nums := rfl

theorem matchXYWH_ne (c : Char) (s : List Char) (hc : ¬ c = 'x') :
    matchXYWH (c :: s) = none := by
  match s with
  | [] => rfl
  | [_] => rfl
  | [_, _] => rfl
  | [_, _, _] => rfl
  | _ :: _ :: _ :: _ :: _ => simp [matchXYWH, hc]

theorem digitDot_ne_x (c : Char) (h : isDigitDot c = true) : decide (c = 'x') = false := by
  cases hcx : decide (c = 'x') with
  | false => rfl
  | true =>
    rw [of_decide_eq_true hcx] at h
    exact absurd h (by decide)

/-- C7: for every fragment that is the xywh token with the percent unit and
four numeric values, the spatial result is present exactly when every value
is at most 100 and both x plus width and y plus height are at most 100; any
violation makes the whole spatial fragment absent. -/
theorem parseSpatialFromFragment_percent_bounds
    (xs ys ws hs : List Char) (vx vy vw vh : ℚ)
    (hxs : ∀ c ∈ xs, isDigitDot c = true) (hys : ∀ c ∈ ys, isDigitDot c = true)
    (hws : ∀ c ∈ ws, isDigitDot c = true) (hhs : ∀ c ∈ hs, isDigitDot c = true)
    (hvx : parseFloatNum xs = some vx) (hvy : parseFloatNum ys = some vy)
    (hvw : parseFloatNum ws = some vw) (hvh : parseFloatNum hs = some vh) :
    parseSpatialFromFragment
        (str "xywh=percent:" ++ (xs ++ ',' :: (ys ++ ',' :: (ws ++ ',' :: hs)))) =
      if vx ≤ 100 ∧ vy ≤ 100 ∧ vw ≤ 100 ∧ vh ≤ 100 ∧ vx + vw ≤ 100 ∧ vy + vh ≤ 100
      then some ⟨vx, vy, vw, vh, "percent"⟩ else none := by
  have h4 : parse4Runs (xs ++ ',' :: (ys ++ ',' :: (ws ++ ',' :: hs))) =
      some (xs, ys, ws, hs) :=
    parse4Runs_eval xs ys ws hs hxs hys hws hhs
      (parseFloatNum_ne_nil xs vx hvx) (parseFloatNum_ne_nil ys vy hvy)
      (parseFloatNum_ne_nil ws vw hvw) (parseFloatNum_ne_nil hs vh hvh)
  have hcore := matchXYWHCore_percent _ xs ys ws hs vx vy vw vh h4 hvx hvy hvw hvh
  have hmem : ∀ c ∈ (xs ++ ',' :: (ys ++ ',' :: (ws ++ ',' :: hs))),
      decide (c = 'x') = false := by
    intro c hc
    rcases List.mem_append.mp hc with h | h
    · exact digitDot_ne_x c (hxs c h)
    · rcases List.mem_cons.mp h with rfl | h
      · decide
      · rcases List.mem_append.mp h with h | h
        · exact digitDot_ne_x c (hys c h)
        · rcases List.mem_cons.mp h with rfl | h
          · decide
          · rcases List.mem_append.mp h with h | h
            · exact digitDot_ne_x c (hws c h)
            · rcases List.mem_cons.mp h with rfl | h
              · decide
              · exact digitDot_ne_x c (hhs c h)
  have hnoX : ∀ c ∈ ('y' :: 'w' :: 'h' :: '=' :: 'p' :: 'e' :: 'r' :: 'c' :: 'e' :: 'n' ::
      't' :: ':' :: (xs ++ ',' :: (ys ++ ',' :: (ws ++ ',' :: hs)))),
      decide (c = 'x') = false := by
    intro c hc
    simp only [List.mem_cons] at hc
    rcases hc with rfl | rfl | rfl | rfl | rfl | rfl | rfl | rfl | rfl | rfl | rfl | rfl | hc
    all_goals try decide
    exact hmem c hc
  rw [parseSpatialFromFragment,
    show str "xywh=percent:" ++ (xs ++ ',' :: (ys ++ ',' :: (ws ++ ',' :: hs))) =
      'x' :: 'y' :: 'w' :: 'h' :: '=' :: 'p' :: 'e' :: 'r' :: 'c' :: 'e' :: 'n' :: 't' :: ':' ::
        (xs ++ ',' :: (ys ++ ',' :: (ws ++ ',' :: hs))) from rfl,
    scanFirst, matchXYWH_percent, hcore]
  by_cases hcond : vx ≤ 100 ∧ vy ≤ 100 ∧ vw ≤ 100 ∧ vh ≤ 100 ∧ vx + vw ≤ 100 ∧ vy + vh ≤ 100
  · rw [if_pos hcond]
  · rw [if_neg hcond]
    exact scanFirst_none matchXYWH (fun c => decide (c = 'x'))
      (fun c s hcs => matchXYWH_ne c s (of_decide_eq_false hcs)) rfl _ hnoX

/-- C7 witness at percent 10, 20, 30, 40 (all bounds satisfied). -/
theorem parseSpatialFromFragment_percent_bounds_wit :
    (∀ c ∈ str "10", isDigitDot c = true) ∧ (∀ c ∈ str "20", isDigitDot c = true) ∧
    (∀ c ∈ str "30", isDigitDot c = true) ∧ (∀ c ∈ str "40", isDigitDot c = true) ∧
    parseFloatNum (str "10") = some 10 ∧ parseFloatNum (str "20") = some 20 ∧
    parseFloatNum (str "30") = some 30 ∧ parseFloatNum (str "40") = some 40 ∧
    parseSpatialFromFragment
        (str "xywh=percent:" ++ (str "10" ++ ',' :: (str "20" ++ ',' :: (str "30" ++ ',' :: str "40")))) =
      (if (10:ℚ) ≤ 100 ∧ (20:ℚ) ≤ 100 ∧ (30:ℚ) ≤ 100 ∧ (40:ℚ) ≤ 100 ∧
          (10:ℚ) + 30 ≤ 100 ∧ (20:ℚ) + 40 ≤ 100
       then some ⟨10, 20, 30, 40, "percent"⟩ else none) :=
  ⟨by decide, by decide, by decide, by decide, by decide, by decide, by decide, by decide,
   parseSpatialFromFragment_percent_bounds (str "10") (str "20") (str "30") (str "40")
     10 20 30 40 (by decide) (by decide) (by decide) (by decide)
     (by decide) (by decide) (by decide) (by decide)⟩

/-- The well-formedness a segment inherits from the cue list it was built
from: ordered times, and a degenerate segment points back to a degenerate
cue with the same speaker and time. -/
def segGood (L : List ParsedCue) (seg : SpeakerSegment) : Prop :=
  seg.startTime ≤ seg.endTime ∧
  (seg.startTime = seg.endTime →
    ∃ c ∈ L, c.speaker = seg.speaker ∧ c.startTime = seg.startTime ∧
      c.endTime = seg.startTime)

theorem segGood_of_state (L : List ParsedCue) (sp : Option (List Char)) (st en : ℚ)
    (hsten : st ≤ en)
    (hopen : ∃ c ∈ L, c.speaker = sp ∧ c.startTime = st ∧ c.startTime ≤ c.endTime ∧
      c.endTime ≤ en) :
    segGood L ⟨sp, st, en⟩ := by
  refine ⟨hsten, fun heq => ?_⟩
  obtain ⟨c, hcL, hsp, hst, hse, hee⟩ := hopen
  refine ⟨c, hcL, hsp, hst, ?_⟩
  have h1 : c.endTime ≤ st := by
    have : st = en := heq
    rw [this]
    exact hee
  have h2 : st ≤ c.endTime := by
    rw [← hst]
    exact hse
  exact le_antisymm h1 h2

theorem groupAux_good (L : List ParsedCue) :
    ∀ (cs : List ParsedCue) (sp : Option (List Char)) (st en : ℚ)
      (acc : List SpeakerSegment),
      (∀ c ∈ cs, c ∈ L) → (∀ c ∈ cs, c.startTime ≤ c.endTime) →
      st ≤ en →
      (∃ c ∈ L, c.speaker = sp ∧ c.startTime = st ∧ c.startTime ≤ c.endTime ∧
        c.endTime ≤ en) →
      (∀ seg ∈ acc, segGood L seg) →
      ∀ seg ∈ groupAux cs sp st en acc, segGood L seg := by
  intro cs
  induction cs with
  | nil =>
    intro sp st en acc _ _ hsten hopen hacc seg hseg
    rw [groupAux] at hseg
    rcases List.mem_append.mp hseg with hin | hin
    · exact hacc seg hin
    · rw [List.mem_singleton.mp hin]
      exact segGood_of_state L sp st en hsten hopen
  | cons c0 cs ih =>
    intro sp st en acc hcsL hcs hsten hopen hacc
    rw [groupAux]
    by_cases hc : c0.speaker = sp ∧ c0.startTime = en
    · rw [if_pos hc]
      have hc0L : c0 ∈ L := hcsL c0 (List.mem_cons_self c0 cs)
      have hc0t : c0.startTime ≤ c0.endTime := hcs c0 (List.mem_cons_self c0 cs)
      have hen : en ≤ c0.endTime := by
        rw [← hc.2]
        exact hc0t
      refine ih sp st c0.endTime acc
        (fun c hcm => hcsL c (List.mem_cons_of_mem c0 hcm))
        (fun c hcm => hcs c (List.mem_cons_of_mem c0 hcm))
        (le_trans hsten hen) ?_ hacc
      obtain ⟨c, hcL, hsp, hst, hse, hee⟩ := hopen
      exact ⟨c, hcL, hsp, hst, hse, le_trans hee hen⟩
    · rw [if_neg hc]
      have hc0L : c0 ∈ L := hcsL c0 (List.mem_cons_self c0 cs)
      have hc0t : c0.startTime ≤ c0.endTime := hcs c0 (List.mem_cons_self c0 cs)
      refine ih c0.speaker c0.startTime c0.endTime (acc ++ [⟨sp, st, en⟩])
        (fun c hcm => hcsL c (List.mem_cons_of_mem c0 hcm))
        (fun c hcm => hcs c (List.mem_cons_of_mem c0 hcm))
        hc0t ⟨c0, hc0L, rfl, rfl, hc0t, le_refl _⟩ ?_
      intro seg hseg
      rcases List.mem_append.mp hseg with hin | hin
      · exact hacc seg hin
      · rw [List.mem_singleton.mp hin]
        exact segGood_of_state L sp st en hsten hopen

/-- C3 amended: when every parsed cue of the input is well ordered (end at
least start), every segment of parseSpeakers satisfies endTime at least
startTime, and a degenerate segment arises only from a degenerate zero-length
cue with the same speaker and time; the tokenizer itself does not validate
cue ordering, so a reversed timing line violates the original claim (see the
counterexample). -/
theorem parseSpeakers_segment_times (v : List Char)
    (h : ∀ c ∈ parseVTTCues v, c.startTime ≤ c.endTime) :
    ∀ seg ∈ parseSpeakers v,
      seg.startTime ≤ seg.endTime ∧
      (seg.startTime = seg.endTime →
        ∃ c ∈ parseVTTCues v, c.speaker = seg.speaker ∧ c.startTime = seg.startTime ∧
          c.endTime = seg.startTime) := by
  intro seg hseg
  rw [parseSpeakers] at hseg
  split at hseg
  · cases hseg
  · have hseg2 : seg ∈ groupBySpeaker
        ((parseVTTCues v).filter (fun c => c.speaker.isSome)) :=
      (List.perm_insertionSort segLE _).subset hseg
    cases hf : (parseVTTCues v).filter (fun c => c.speaker.isSome) with
    | nil =>
      rw [hf] at hseg2
      cases hseg2
    | cons c0 rest =>
      rw [hf, groupBySpeaker] at hseg2
      have hc0 : c0 ∈ parseVTTCues v := by
        refine List.mem_of_mem_filter (p := fun c => c.speaker.isSome) ?_
        rw [hf]
        exact List.mem_cons_self c0 rest
      have hrestL : ∀ c ∈ rest, c ∈ parseVTTCues v := by
        intro c hcr
        refine List.mem_of_mem_filter (p := fun c => c.speaker.isSome) ?_
        rw [hf]
        exact List.mem_cons_of_mem c0 hcr
      exact groupAux_good (parseVTTCues v) rest c0.speaker c0.startTime c0.endTime []
        hrestL (fun c hcr => h c (hrestL c hcr)) (h c0 hc0)
        ⟨c0, hc0, rfl, rfl, h c0 hc0, le_refl _⟩
        (fun s hs => absurd hs (List.not_mem_nil s)) seg hseg2

/-- C3 witness at a single well-ordered cue from 0 to 5 seconds. -/
theorem parseSpeakers_segment_times_wit :
    (∀ c ∈ parseVTTCues (str "00:00.000 --> 00:05.000\n<v A>x"), c.startTime ≤ c.endTime) ∧
    (∀ seg ∈ parseSpeakers (str "00:00.000 --> 00:05.000\n<v A>x"),
      seg.startTime ≤ seg.endTime ∧
      (seg.startTime = seg.endTime →
        ∃ c ∈ parseVTTCues (str "00:00.000 --> 00:05.000\n<v A>x"),
          c.speaker = seg.speaker ∧ c.startTime = seg.startTime ∧
            c.endTime = seg.startTime)) :=
  ⟨by decide, parseSpeakers_segment_times (str "00:00.000 --> 00:05.000\n<v A>x") (by decide)⟩

/-- C3 counterexample: a reversed timing line (10 seconds to 5 seconds)
passes the tokenizer unchecked and produces a segment whose endTime is
strictly below its startTime. -/
theorem parseSpeakers_segment_times_cex :
    ∃ seg ∈ parseSpeakers (str "00:10.000 --> 00:05.000\n<v A>x"),
      seg.endTime < seg.startTime := by decide

theorem temporalFromAnchoredCaps_explicit_lt (a : List Char) (b : Option (List Char))
    (s e : ℚ) (h : temporalFromAnchoredCaps a b = some ⟨s, some e⟩) : s < e := by
  rw [temporalFromAnchoredCaps] at h
  split at h
  · cases h
  · split at h
    · cases h
    · split at h
      · simp at h
      · split at h
        · cases h
        · split at h
          · cases h
          · next he0 =>
            simp only [Option.some.injEq, TemporalFragment.mk.injEq] at h
            rw [← h.1, ← h.2]
            exact not_le.mp he0

theorem extractTemporalFragment_explicit_lt (canvasId : List Char) (s e : ℚ)
    (h : extractTemporalFragment canvasId = some ⟨s, some e⟩) : s < e := by
  rw [extractTemporalFragment] at h
  split at h
  · cases h
  · exact temporalFromAnchoredCaps_explicit_lt _ _ s e h

theorem createChapterFromRange_cases (r : RangeNode) (items : List RangeNode)
    (durs : DurMap) (c : Chapter) (h : createChapterFromRange r items durs = some c) :
    c.startTime < c.endTime ∨ ∃ canvasId, durs canvasId = some c.endTime := by
  rw [createChapterFromRange.eq_def] at h
  split at h
  · cases h
  · next firstItem rest =>
    split at h
    · cases h
    · next timing hextract =>
      split at h
      · cases h
      · next endTime hresolve =>
        cases h
        cases timing with
        | mk ts te =>
          cases te with
          | some e0 =>
            left
            have he0 : e0 = endTime := by
              simpa using hresolve
            show ts < endTime
            rw [← he0]
            exact extractTemporalFragment_explicit_lt firstItem.id ts e0 hextract
          | none =>
            right
            exact ⟨extractCanvasId firstItem.id, by simpa using hresolve⟩

mutual

theorem processRange_mem_ex (r : RangeNode) (durs : DurMap) (c : Chapter)
    (hc : c ∈ processRange r durs) :
    ∃ r' items, createChapterFromRange r' items durs = some c := by
  match r with
  | .mk i ty lab items th md =>
    rw [processRange] at hc
    split at hc
    · cases hc
    · rcases List.mem_append.mp hc with hin | hin
      · split at hin
        · cases hopt : createChapterFromRange (.mk i ty lab items th md)
              (items.filter temporalPred) durs with
          | none =>
            rw [hopt] at hin
            cases hin
          | some c0 =>
            rw [hopt] at hin
            rcases List.mem_singleton.mp hin with rfl
            exact ⟨_, _, hopt⟩
        · cases hin
      · exact processItems_mem_ex items durs c hin

theorem processItems_mem_ex (l : List RangeNode) (durs : DurMap) (c : Chapter)
    (hc : c ∈ processItems l durs) :
    ∃ r' items, createChapterFromRange r' items durs = some c := by
  match l with
  | [] =>
    rw [processItems] at hc
    cases hc
  | it :: rest =>
    rw [processItems] at hc
    rcases List.mem_append.mp hc with hin | hin
    · split at hin
      · exact processRange_mem_ex it durs c hin
      · cases hin
    · exact processItems_mem_ex rest durs c hin

end

theorem processStructures_mem_ex (l : List RangeNode) (durs : DurMap) (c : Chapter)
    (hc : c ∈ processStructures l durs) :
    ∃ r' items, createChapterFromRange r' items durs = some c := by
  induction l with
  | nil =>
    rw [processStructures] at hc
    cases hc
  | cons r rest ih =>
    rw [processStructures] at hc
    rcases List.mem_append.mp hc with hin | hin
    · exact processRange_mem_ex r durs c hin
    · exact ih hin

/-- C1 amended: every chapter returned by parseRanges satisfies endTime
strictly greater than startTime unless its endTime was back-filled from a
declared canvas duration, in which case it equals that duration and the
code performs no ordering check against the start (see the
counterexample). -/
theorem parseRanges_endTime (m : IIIFManifest) (c : Chapter) (hc : c ∈ parseRanges m) :
    c.startTime < c.endTime ∨
      ∃ canvasId, buildCanvasDurationMap m.items canvasId = some c.endTime := by
  rw [parseRanges] at hc
  split at hc
  · cases hc
  · have hc2 : c ∈ processStructures m.structures (buildCanvasDurationMap m.items) :=
      (List.perm_insertionSort chLE _).subset hc
    obtain ⟨r', items', hsome⟩ := processStructures_mem_ex _ _ c hc2
    exact createChapterFromRange_cases r' items' _ c hsome

/-- The concrete manifest of the C1 witness. -/
def manifestWitC1 : IIIFManifest :=
  ⟨str "m",
   [.mk (str "range-1") "Range" (some [("en", [str "Introduction"])])
      [.mk (str "canvas#t=0,30") "Canvas" none [] [] []] [] []],
   []⟩

/-- C1 witness: the explicit chapter 0 to 30 of the witness manifest. -/
theorem parseRanges_endTime_wit :
    (⟨str "range-1", str "Introduction", 0, 30, none, none⟩ : Chapter) ∈
        parseRanges manifestWitC1 ∧
    ((⟨str "range-1", str "Introduction", 0, 30, none, none⟩ : Chapter).startTime <
        (⟨str "range-1", str "Introduction", 0, 30, none, none⟩ : Chapter).endTime ∨
      ∃ canvasId, buildCanvasDurationMap manifestWitC1.items canvasId =
        some (⟨str "range-1", str "Introduction", 0, 30, none, none⟩ : Chapter).endTime) :=
  ⟨by decide, parseRanges_endTime manifestWitC1 _ (by decide)⟩

/-- C1 counterexample: an open-ended fragment starting at 10 back-filled from
a declared duration of 5 produces a chapter whose endTime is strictly below
its startTime, violating the claimed invariant. -/
theorem parseRanges_endTime_cex :
    ∃ c ∈ parseRanges
        ⟨str "m",
         [.mk (str "r") "Range" none [.mk (str "c#t=10") "Canvas" none [] [] []] [] []],
         [⟨str "c", some 5⟩]⟩,
      c.endTime < c.startTime := by decide

theorem createChapterFromRange_first (r : RangeNode) (f : RangeNode)
    (rest : List RangeNode) (durs : DurMap) :
    createChapterFromRange r (f :: rest) durs = createChapterFromRange r [f] durs := rfl

theorem toList_length_le_one {α : Type} (o : Option α) : o.toList.length ≤ 1 := by
  cases o <;> simp

theorem mem_toList_eq {α : Type} (o : Option α) (a : α) (h : a ∈ o.toList) :
    o = some a := by
  cases o with
  | none => cases h
  | some x => rw [List.mem_singleton.mp h]

/-- C8: every range node synthesizes at most one chapter directly, and any
chapter it synthesizes is fully determined by the first direct Canvas child
carrying a temporal fragment (in list order): the chapter already arises from
the singleton list holding that first filtered child, so later matching
children never contribute. -/
theorem processRange_first_child_only (r : RangeNode) (durs : DurMap) :
    ∃ direct : List Chapter,
      processRange r durs = direct ++ processItems r.items durs ∧
      direct.length ≤ 1 ∧
      ∀ c ∈ direct, ∃ firstItem rest,
        r.items.filter temporalPred = firstItem :: rest ∧
        createChapterFromRange r [firstItem] durs = some c := by
  cases r with
  | mk i ty lab items th md =>
    rw [processRange]
    show ∃ direct, _ = direct ++ processItems items durs ∧ _
    by_cases hlen : items.length = 0
    · refine ⟨[], ?_, by simp, fun c hc => absurd hc (List.not_mem_nil c)⟩
      rw [if_pos hlen, List.length_eq_zero.mp hlen]
      rfl
    · rw [if_neg hlen]
      by_cases hfil : 0 < (items.filter temporalPred).length
      · refine ⟨(createChapterFromRange (.mk i ty lab items th md)
            (items.filter temporalPred) durs).toList, ?_, toList_length_le_one _, ?_⟩
        · rw [if_pos hfil]
        · intro c hc
          cases hf : items.filter temporalPred with
          | nil =>
            rw [hf] at hfil
            exact absurd hfil (by simp)
          | cons f rest =>
            refine ⟨f, rest, hf, ?_⟩
            rw [hf] at hc
            rw [← createChapterFromRange_first (.mk i ty lab items th md) f rest durs]
            exact mem_toList_eq _ c hc
      · refine ⟨[], ?_, by simp, fun c hc => absurd hc (List.not_mem_nil c)⟩
        rw [if_neg hfil]
